import Mathlib

/-!
Verification of the reconciliation and query core of the `ovh-manager` CLI
(`index.mjs`).  The JavaScript source is shallowly embedded: the stateful
`updateRedirections` becomes a pure function from the prior cached list, the
remote id list and the per-id detail-fetch results to the new cached list;
the remote client is a parameter; the on-disk multi-domain cache object is an
association list.  JavaScript strings are `String`, redirection ids are a sum
of string and integer (`JsVal`), and `Array.prototype.sort` — a stable sort
since ES2019, whose output for a consistent comparator is therefore the
unique stable-sorted permutation — is modelled by `List.insertionSort`,
which is stable (`List.sublist_insertionSort`) and structural, so the kernel
can evaluate it on concrete inputs.
-/

/-- A JavaScript primitive used as a redirection identifier: the data model
allows ids to be strings or integers. -/
inductive JsVal where
  | str : String → JsVal
  | num : Int → JsVal
deriving DecidableEq, Repr

/-- A redirection record `{ id, from, to }`.  `from` and `to` are Lean
keywords, so the fields are named `fromAddr`/`toAddr`. -/
structure Redirection where
  id : JsVal
  fromAddr : String
  toAddr : String
deriving DecidableEq, Repr

/-- Ordinal (code-point) strict lexicographic comparison of character lists,
written structurally so that the kernel can evaluate it on literals. -/
def charsLt : List Char → List Char → Bool
  | [], [] => false
  | [], _ :: _ => true
  | _ :: _, [] => false
  | a :: as, b :: bs => if a < b then true else if b < a then false else charsLt as bs

theorem charsLt_cons_cons (a b : Char) (as bs : List Char) :
    charsLt (a :: as) (b :: bs) =
      if a < b then true else if b < a then false else charsLt as bs := rfl

theorem charsLt_nil_right : ∀ x : List Char, charsLt x [] = false
  | [] => rfl
  | _ :: _ => rfl

theorem charsLt_irrefl : ∀ x : List Char, charsLt x x = false
  | [] => rfl
  | a :: as => by
    rw [charsLt_cons_cons, if_neg (lt_irrefl a), if_neg (lt_irrefl a)]
    exact charsLt_irrefl as

theorem charsLt_eq_of_not (x y : List Char) (hxy : charsLt x y = false)
    (hyx : charsLt y x = false) : x = y := by
  induction x generalizing y with
  | nil =>
    cases y with
    | nil => rfl
    | cons b bs => exact absurd hxy (by simp [charsLt])
  | cons a as ih =>
    cases y with
    | nil => exact absurd hyx (by simp [charsLt])
    | cons b bs =>
      rw [charsLt_cons_cons] at hxy hyx
      by_cases hab : a < b
      · rw [if_pos hab] at hxy; exact absurd hxy (by simp)
      · by_cases hba : b < a
        · rw [if_pos hba] at hyx; exact absurd hyx (by simp)
        · rw [if_neg hab, if_neg hba] at hxy
          rw [if_neg hba, if_neg hab] at hyx
          have : a = b := le_antisymm (not_lt.mp hba) (not_lt.mp hab)
          rw [this, ih bs hxy hyx]

theorem charsLt_trans : ∀ x y z : List Char, charsLt x y = true → charsLt y z = true →
    charsLt x z = true
  | _, [], _, hxy, _ => by rw [charsLt_nil_right] at hxy; exact absurd hxy (by simp)
  | _, _ :: _, [], _, hyz => by rw [charsLt_nil_right] at hyz; exact absurd hyz (by simp)
  | [], b :: bs, c :: cs, _, _ => rfl
  | a :: as, b :: bs, c :: cs, hxy, hyz => by
    rw [charsLt_cons_cons] at hxy hyz ⊢
    by_cases hab : a < b
    · by_cases hbc : b < c
      · rw [if_pos (lt_trans hab hbc)]
      · have hcb : ¬ c < b := by
          intro h
          rw [if_neg hbc, if_pos h] at hyz
          exact absurd hyz (by simp)
        have hbceq : b = c := le_antisymm (not_lt.mp hcb) (not_lt.mp hbc)
        rw [if_pos (hbceq ▸ hab)]
    · have hba : ¬ b < a := by
        intro h
        rw [if_neg hab, if_pos h] at hxy
        exact absurd hxy (by simp)
      have habeq : a = b := le_antisymm (not_lt.mp hba) (not_lt.mp hab)
      subst habeq
      rw [if_neg hab, if_neg hba] at hxy
      by_cases hac : a < c
      · rw [if_pos hac]
      · have hca : ¬ c < a := by
          intro h
          rw [if_neg hac, if_pos h] at hyz
          exact absurd hyz (by simp)
        rw [if_neg hac, if_neg hca] at hyz ⊢
        exact charsLt_trans as bs cs hxy hyz

theorem charsLt_asymm (x y : List Char) (h : charsLt x y = true) : charsLt y x = false := by
  by_contra hne
  have := charsLt_trans x y x h (by revert hne; cases charsLt y x <;> simp)
  rw [charsLt_irrefl] at this
  exact absurd this (by simp)

/-- ASCII model of `String.prototype.toLowerCase`. -/
def toLowerStr (s : String) : String := String.mk (s.data.map Char.toLower)

/-- Primary collation key: the lowercased character list. -/
def foldKey (s : String) : List Char := s.data.map Char.toLower

/-- Tertiary (case) collation key: uppercase letters contribute '1', anything
else '0', so that the lowercase variant sorts first on ties, as the default
ICU collation does. -/
def markKey (s : String) : List Char :=
  s.data.map (fun c => if c.isUpper then '1' else '0')

/-- Model of `a.localeCompare(b)` under the default collation, restricted to
ASCII: the primary comparison is case-insensitive (on the lowercased
strings) and ties are broken by case, lowercase first.  This is not the
ordinal string order: `"a".localeCompare("B")` is negative although
`'B' < 'a'` ordinally. -/
def localeCompare (a b : String) : Int :=
  if charsLt (foldKey a) (foldKey b) then -1
  else if charsLt (foldKey b) (foldKey a) then 1
  else if charsLt (markKey a) (markKey b) then -1
  else if charsLt (markKey b) (markKey a) then 1
  else 0

theorem localeCompare_le_iff (a b : String) :
    localeCompare a b ≤ 0 ↔
      (charsLt (foldKey a) (foldKey b) = true ∨
        (foldKey a = foldKey b ∧ charsLt (markKey b) (markKey a) = false)) := by
  unfold localeCompare
  split_ifs with h1 h2 h3 h4
  · exact iff_of_true (by decide) (Or.inl h1)
  · refine iff_of_false (by decide) ?_
    rintro (h | ⟨h, -⟩)
    · rw [h] at h1; exact h1 rfl
    · rw [h, charsLt_irrefl] at h2; exact absurd h2 (by simp)
  · exact iff_of_true (by decide)
      (Or.inr ⟨charsLt_eq_of_not _ _ (by simpa using h1) (by simpa using h2),
        charsLt_asymm _ _ h3⟩)
  · refine iff_of_false (by decide) ?_
    rintro (h | ⟨-, h⟩)
    · exact h1 h
    · rw [h] at h4; exact absurd h4 (by simp)
  · exact iff_of_true (by decide)
      (Or.inr ⟨charsLt_eq_of_not _ _ (by simpa using h1) (by simpa using h2),
        by simpa using h4⟩)

theorem localeCompare_le_total (a b : String) :
    localeCompare a b ≤ 0 ∨ localeCompare b a ≤ 0 := by
  rcases h1 : charsLt (foldKey a) (foldKey b) with - | -
  · rcases h2 : charsLt (foldKey b) (foldKey a) with - | -
    · have heq : foldKey a = foldKey b := charsLt_eq_of_not _ _ h1 h2
      rcases h3 : charsLt (markKey b) (markKey a) with - | -
      · exact Or.inl ((localeCompare_le_iff a b).mpr (Or.inr ⟨heq, h3⟩))
      · exact Or.inr ((localeCompare_le_iff b a).mpr
          (Or.inr ⟨heq.symm, charsLt_asymm _ _ h3⟩))
    · exact Or.inr ((localeCompare_le_iff b a).mpr (Or.inl h2))
  · exact Or.inl ((localeCompare_le_iff a b).mpr (Or.inl h1))

theorem localeCompare_le_trans {a b c : String} (hab : localeCompare a b ≤ 0)
    (hbc : localeCompare b c ≤ 0) : localeCompare a c ≤ 0 := by
  rw [localeCompare_le_iff] at hab hbc ⊢
  rcases hab with h1 | ⟨h1, h1'⟩ <;> rcases hbc with h2 | ⟨h2, h2'⟩
  · exact Or.inl (charsLt_trans _ _ _ h1 h2)
  · exact Or.inl (h2 ▸ h1)
  · exact Or.inl (h1 ▸ h2)
  · refine Or.inr ⟨h1.trans h2, ?_⟩
    rcases h3 : charsLt (markKey c) (markKey a) with - | -
    · rfl
    · rcases h4 : charsLt (markKey c) (markKey b) with - | -
      · rcases h5 : charsLt (markKey b) (markKey c) with - | -
        · have : markKey c = markKey b := charsLt_eq_of_not _ _ h4 h5
          rw [this] at h3; rw [h3] at h1'; exact absurd h1' (by simp)
        · have := charsLt_trans _ _ _ h5 h3
          rw [this] at h1'; exact absurd h1' (by simp)
      · rw [h4] at h2'; exact absurd h2' (by simp)

/-- The relation by which `updateRedirections` sorts, i.e. the comparator
`({ from: a }, { from: b }) => a.localeCompare(b)` returning a non-positive
number. -/
def redirFromLe (a b : Redirection) : Prop :=
  localeCompare a.fromAddr b.fromAddr ≤ 0

instance : DecidableRel redirFromLe :=
  fun a b => inferInstanceAs (Decidable (localeCompare a.fromAddr b.fromAddr ≤ 0))

instance : IsTotal Redirection redirFromLe :=
  ⟨fun a b => localeCompare_le_total a.fromAddr b.fromAddr⟩

instance : IsTrans Redirection redirFromLe :=
  ⟨fun _ _ _ => localeCompare_le_trans⟩

/-- `existingRedirIds` of `updateRedirections`:
`cache[domain].redirections.map(({ id }) => id)`. -/
def existingRedirIds (old : List Redirection) : List JsVal :=
  old.map (fun r => r.id)

/-- `newRedirIds` of `updateRedirections`:
`allRedirIds.filter(rId => !existingRedirIds.includes(rId))`. -/
def newRedirIds (old : List Redirection) (allRedirIds : List JsVal) : List JsVal :=
  allRedirIds.filter (fun rId => !((existingRedirIds old).contains rId))

/-- `newRedirections` of `updateRedirections`: one detail fetch per new id,
in order; `details` is the remote's response to
`GET /email/domain/{domain}/redirection/{id}` (each fetch is assumed to
succeed, so it is a total function). -/
def newRedirections (old : List Redirection) (allRedirIds : List JsVal)
    (details : JsVal → Redirection) : List Redirection :=
  (newRedirIds old allRedirIds).map details

/-- `deletedRedirIds` of `updateRedirections`:
`existingRedirIds.filter(id => !allRedirIds.includes(id))`. -/
def deletedRedirIds (old : List Redirection) (allRedirIds : List JsVal) : List JsVal :=
  (existingRedirIds old).filter (fun i => !(allRedirIds.contains i))

/-- The reconciliation core of `updateRedirections` (index.mjs): the new
value of `cache[domain].redirections`, namely the old records whose id was
not deleted remotely, concatenated with the freshly fetched records, sorted
by `from` with the `localeCompare` comparator. -/
def updateRedirections (old : List Redirection) (allRedirIds : List JsVal)
    (details : JsVal → Redirection) : List Redirection :=
  ((old.filter (fun r => !((deletedRedirIds old allRedirIds).contains r.id))) ++
    newRedirections old allRedirIds details).insertionSort redirFromLe

/-- The three numbers logged by `updateRedirections`, in source order:
`existingRedirIds.length` (printed as "... remote redirection(s)"),
`newRedirections.length` (printed as "... new redirection(s)") and
`deletedRedirIds.length` (printed as "... deleted redirection(s)"). -/
def updateRedirectionsCounts (old : List Redirection) (allRedirIds : List JsVal)
    (details : JsVal → Redirection) : Nat × Nat × Nat :=
  ((existingRedirIds old).length,
    (newRedirections old allRedirIds details).length,
    (deletedRedirIds old allRedirIds).length)

/-- The on-disk cache: a JSON object keyed by domain name, each value the
domain's `redirections` array, as an association list in key order. -/
abbrev Cache := List (String × List Redirection)

/-- Reading `cache[domain].redirections`; the startup code (index.mjs,
`if (!cache[domain]) cache[domain] = { redirections: [] }`) guarantees the
active domain is present, absent keys read as the empty list. -/
def cacheGet (cache : Cache) (dom : String) : List Redirection :=
  match cache.find? (fun e => e.1 == dom) with
  | some e => e.2
  | none => []

/-- `updateRedirections` at the whole-file level: it assigns
`cache[domain].redirections` for the active domain and then serializes the
complete object (`JSON.stringify(cache)`), leaving every other key of the
cache object untouched. -/
def updateRedirectionsCache (cache : Cache) (dom : String) (allRedirIds : List JsVal)
    (details : JsVal → Redirection) : Cache :=
  cache.map (fun e =>
    if e.1 == dom then (e.1, updateRedirections e.2 allRedirIds details) else e)

/-- `redirByFrom` (index.mjs):
`cache[domain].redirections.find(({ from }) => [str, str@domain].includes(from)) || {}`.
The `|| {}` fallback (an empty object, not `null`/`undefined`) is modelled
by `Option`: `none` stands for the empty object. -/
def redirByFrom (redirections : List Redirection) (domain str : String) :
    Option Redirection :=
  redirections.find? (fun r =>
    (r.fromAddr == str) || (r.fromAddr == str ++ "@" ++ domain))

/-- Reading the `.id` field of the value returned by `redirByFrom`: on a
found record it is the record's id, on the empty-object fallback it is
JavaScript `undefined` (here `none`) rather than a crash. -/
def jsIdField (o : Option Redirection) : Option JsVal :=
  match o with
  | some r => some r.id
  | none => none

/-- JavaScript `String(v)` on an id value. -/
def jsValToString : JsVal → String
  | .str s => s
  | .num n => toString n

/-- `sortRedirections`' column selection after the fallback
`validColumns.includes(sortBy) ? sortBy : 'from'`. -/
def sortColumn (sortBy : String) : String :=
  if (["from", "to", "id"] : List String).contains sortBy then sortBy else "from"

/-- The cell value `String(a[col])` read by `sortRedirections`' comparator,
for `col` one of the valid columns (any other string reads `from`; the
source only ever reaches this with a valid column). -/
def colVal (col : String) (r : Redirection) : String :=
  if col == "to" then r.toAddr
  else if col == "id" then jsValToString r.id
  else r.fromAddr

/-- The per-column comparator relation of `sortRedirections`:
`String(a[col]).localeCompare(String(b[col]))` non-positive. -/
def colLe (col : String) (a b : Redirection) : Prop :=
  localeCompare (colVal col a) (colVal col b) ≤ 0

instance (col : String) : DecidableRel (colLe col) :=
  fun a b => inferInstanceAs (Decidable (localeCompare (colVal col a) (colVal col b) ≤ 0))

instance (col : String) : IsTotal Redirection (colLe col) :=
  ⟨fun a b => localeCompare_le_total (colVal col a) (colVal col b)⟩

instance (col : String) : IsTrans Redirection (colLe col) :=
  ⟨fun _ _ _ => localeCompare_le_trans⟩

/-- `sortRedirections` (index.mjs): copy, stable-sort by the chosen column
(invalid columns fall back to `from`), and reverse afterwards when the
requested order is `desc`. -/
def sortRedirections (redirections : List Redirection) (sortBy : String)
    (order : String) : List Redirection :=
  let sorted := redirections.insertionSort (colLe (sortColumn sortBy))
  if order == "desc" then sorted.reverse else sorted

/-- `needle` occurs as a contiguous substring of `hay`
(JavaScript `hay.includes(needle)`), structurally on character lists. -/
def listIncludes (hay needle : List Char) : Bool :=
  match hay with
  | [] => needle.isEmpty
  | _ :: t => needle.isPrefixOf hay || listIncludes t needle

/-- JavaScript `hay.includes(needle)` on strings. -/
def strIncludes (hay needle : String) : Bool := listIncludes hay.data needle.data

/-- The predicate body of `filterRedirections`:
`id.toLowerCase().includes(query) || from... || to...`.  When `id` is a
number (the data model allows it), `id.toLowerCase` does not exist and the
expression throws a `TypeError`, modelled by `Except.error ()`. -/
def redirMatches (query : String) (r : Redirection) : Except Unit Bool :=
  match r.id with
  | .num _ => .error ()
  | .str i => .ok (strIncludes (toLowerStr i) query ||
      strIncludes (toLowerStr r.fromAddr) query ||
      strIncludes (toLowerStr r.toAddr) query)

/-- `redirections.filter(...)` with the throwing predicate: the first
`TypeError` aborts the whole filter. -/
def filterRedirectionsGo (query : String) :
    List Redirection → Except Unit (List Redirection)
  | [] => .ok []
  | r :: rest =>
    match redirMatches query r with
    | .error e => .error e
    | .ok b =>
      match filterRedirectionsGo query rest with
      | .error e => .error e
      | .ok t => .ok (if b then r :: t else t)

/-- `filterRedirections` (index.mjs): an absent (`none`) or empty search
string short-circuits to the input (`if (!searchStr) return redirections`),
otherwise the query is lowercased once and every record is matched
case-insensitively against `id`, `from` and `to`. -/
def filterRedirections (redirections : List Redirection)
    (searchStr : Option String) : Except Unit (List Redirection) :=
  match searchStr with
  | none => .ok redirections
  | some s =>
    if s == "" then .ok redirections
    else filterRedirectionsGo (toLowerStr s) redirections

/-- JavaScript `value.trim()` (whitespace model: `Char.isWhitespace`). -/
def trimStr (s : String) : String :=
  String.mk (((s.data.dropWhile Char.isWhitespace).reverse.dropWhile
    Char.isWhitespace).reverse)

/-- One-or-more characters none of which is `'@'` or whitespace:
the regex `/^[^@\s]+$/`. -/
def validLocalToken (l : List Char) : Bool :=
  !l.isEmpty && l.all (fun c => (c != '@') && !c.isWhitespace)

/-- The email regex `/^[^@\s]+@[^@\s]+\.[^@\s]+$/` of `validateCliArg`:
exactly one `'@'`, a non-empty space-free local part, and a domain part
containing a dot that has at least one character on each side. -/
def splitOnCharAux (sep : Char) : List Char → List Char → List (List Char)
  | [], acc => [acc.reverse]
  | c :: rest, acc =>
    if c == sep then acc.reverse :: splitOnCharAux sep rest []
    else splitOnCharAux sep rest (c :: acc)

def emailValid (s : String) : Bool :=
  match splitOnCharAux '@' s.data [] with
  | [a, b] =>
    !a.isEmpty && a.all (fun c => !c.isWhitespace) &&
      b.all (fun c => !c.isWhitespace) && ((b.drop 1).dropLast.contains '.')
  | _ => false

/-- The kinds accepted by `validateCliArg`. -/
inductive ArgKind where
  | id
  | email
  | localOrEmail

/-- `validateCliArg` (index.mjs): trims the value and validates it against
the regex of the requested kind, returning the trimmed value or throwing
(`Except.error`) the source's error message. -/
def validateCliArg (value : String) (t : ArgKind) : Except String String :=
  let trimmed := trimStr value
  match t with
  | .id =>
    if !trimmed.data.isEmpty && trimmed.data.all Char.isDigit then .ok trimmed
    else .error "Invalid id: must be a positive integer."
  | .email =>
    if emailValid trimmed then .ok trimmed
    else .error "Invalid email address."
  | .localOrEmail =>
    if validLocalToken trimmed.data then .ok trimmed
    else if emailValid trimmed then .ok trimmed
    else .error "Invalid local part or email address."

/-- Model of the `redir delete` item classifier
`Number(item).toString() === item`, on its reachable inputs: canonical
decimal digit strings (no leading zero except "0") round-trip through
`Number`; every non-digit identifier of interest (local parts, emails)
yields `NaN` and fails the comparison. -/
def isJsCanonicalNumber (s : String) : Bool :=
  match s.data with
  | [] => false
  | c :: rest => (c :: rest).all Char.isDigit && (c != '0' || rest.isEmpty)

/-- The `redir delete` action (index.mjs): for each item of the batch, an
all-digit item is validated as an id and deleted remotely by that id; any
other item is validated as local-part-or-email and deleted remotely by
`redirByFrom(item).id` — which is JavaScript `undefined` (`none`) when the
lookup finds nothing, yet `deleteRedir` is still called and still issues
`DELETE .../redirection/undefined`.  A validation error is caught per item
and issues no call.  Returns the ordered list of issued remote DELETE calls
(`none` = a call whose URL id segment is `undefined`) and the number of
`updateRedirections` runs (one, after the whole batch). -/
def redirDeleteAction (redirections : List Redirection) (domain : String)
    (items : List String) : List (Option JsVal) × Nat :=
  (items.foldl (fun acc item =>
    if isJsCanonicalNumber item then
      match validateCliArg item ArgKind.id with
      | .ok v => acc ++ [some (JsVal.str v)]
      | .error _ => acc
    else
      match validateCliArg item ArgKind.localOrEmail with
      | .ok v => acc ++ [jsIdField (redirByFrom redirections domain v)]
      | .error _ => acc) [], 1)

/-- Replace every occurrence of `pat` in `s` by `repl`, scanning left to
right without overlap — the semantics of JavaScript
`s.split(pat).join(repl)` for a non-empty `pat`.  The fuel argument (the
length of `s`) makes the recursion structural. -/
def replaceAllAux (pat repl : List Char) : Nat → List Char → List Char
  | 0, s => s
  | _ + 1, [] => []
  | fuel + 1, c :: rest =>
    if pat.isPrefixOf (c :: rest) then
      repl ++ replaceAllAux pat repl fuel ((c :: rest).drop pat.length)
    else c :: replaceAllAux pat repl fuel rest

def replaceAll (s pat repl : String) : String :=
  String.mk (replaceAllAux pat.data repl.data s.data.length s.data)

/-- `maskSecretsInLog` (index.mjs) on an input that is already a string:
for each configured secret (`APP_KEY`, `APP_SECRET`, `CONSUMER_KEY`,
`DEFAULT_TO`, already filtered to be non-empty strings), the secret is
replaced by `[REDACTED]` — but only when `secret.length > 4`. -/
def maskSecretsInLog (secrets : List String) (input : String) : String :=
  secrets.foldl (fun str secret =>
    if secret.length > 4 then replaceAll str secret "[REDACTED]" else str) input

/-- Spec-side notion for claim C3 (not from the source): case-sensitive
ordinal (code-unit) lexicographic ≤ on strings, the "ordinal comparison"
named by the spec. -/
def ordinalLe (a b : String) : Bool := !(charsLt b.data a.data)

/-- Spec-side notion for claim C3: the sequence is sorted ascending by
`from` under ordinal comparison (each record's `from` ordinally at most the
next one's; with `ordinalLe` transitive this is the usual sortedness). -/
def sortedByFromOrdinal : List Redirection → Bool
  | [] => true
  | [_] => true
  | x :: y :: t => ordinalLe x.fromAddr y.fromAddr && sortedByFromOrdinal (y :: t)

theorem contains_eq_decide_mem {α : Type} [DecidableEq α] (l : List α) (a : α) :
    l.contains a = decide (a ∈ l) := by simp

theorem kept_filter_eq (old : List Redirection) (R : List JsVal) :
    old.filter (fun r => !((deletedRedirIds old R).contains r.id)) =
      old.filter (fun r => R.contains r.id) := by
  apply List.filter_congr
  intro r hr
  have hrid : r.id ∈ existingRedirIds old := List.mem_map_of_mem _ hr
  by_cases h : r.id ∈ R
  · simp [deletedRedirIds, contains_eq_decide_mem, List.mem_filter, h, hrid]
  · simp [deletedRedirIds, contains_eq_decide_mem, List.mem_filter, h, hrid]

theorem kept_ids (old : List Redirection) (R : List JsVal) :
    (old.filter (fun r => R.contains r.id)).map (fun r => r.id) =
      (existingRedirIds old).filter (fun i => R.contains i) := by
  unfold existingRedirIds
  simp only [contains_eq_decide_mem]
  induction old with
  | nil => rfl
  | cons r t ih =>
    by_cases h : r.id ∈ R
    · simp [h, ih]
    · simp [h, ih]

theorem ids_of_map_details (details : JsVal → Redirection) :
    ∀ l : List JsVal, (∀ i ∈ l, (details i).id = i) →
      (l.map details).map (fun r => r.id) = l
  | [], _ => rfl
  | i :: t, h => by
    simp only [List.map_cons, List.cons.injEq]
    exact ⟨h i (by simp), ids_of_map_details details t (fun j hj => h j (by simp [hj]))⟩

theorem newRedirections_ids (old : List Redirection) (R : List JsVal)
    (details : JsVal → Redirection) (hdet : ∀ i ∈ R, (details i).id = i) :
    (newRedirections old R details).map (fun r => r.id) = newRedirIds old R := by
  apply ids_of_map_details
  intro i hi
  exact hdet i (List.mem_filter.mp hi).1

/-- C1: for every prior snapshot and remote id set, if every detail fetch
for a new id succeeds (returning the record with that id), then after
`updateRedirections` the persisted list for the active domain carries
exactly the ids of the remote set — one record per remote id, nothing
missing, nothing stale — and an empty remote id set empties the domain's
sequence.  (Remote id sets are sets, and cached ids are unique by the
spec's data-model invariant, hence the two `Nodup` hypotheses.) -/
theorem updateRedirections_completeness (old : List Redirection)
    (R : List JsVal) (details : JsVal → Redirection)
    (hold : (existingRedirIds old).Nodup) (hR : R.Nodup)
    (hdet : ∀ i ∈ R, (details i).id = i) :
    ((updateRedirections old R details).map (fun r => r.id)).Perm R ∧
      (R = [] → updateRedirections old R details = []) := by
  have hper : (updateRedirections old R details).Perm
      ((old.filter (fun r => R.contains r.id)) ++ newRedirections old R details) := by
    unfold updateRedirections
    rw [kept_filter_eq]
    exact List.perm_insertionSort _ _
  have hperm0 := hper.map (fun r => r.id)
  rw [List.map_append, kept_ids,
    newRedirections_ids old R details hdet] at hperm0
  have hA : ((existingRedirIds old).filter (fun i => R.contains i)).Perm
      (R.filter (fun i => (existingRedirIds old).contains i)) := by
    rw [List.perm_ext_iff_of_nodup (hold.filter _) (hR.filter _)]
    intro a
    simp only [List.mem_filter, contains_eq_decide_mem, decide_eq_true_eq]
    exact and_comm
  have hB : (R.filter (fun i => (existingRedirIds old).contains i) ++
      newRedirIds old R).Perm R :=
    List.filter_append_perm (fun i => (existingRedirIds old).contains i) R
  have hmain : ((updateRedirections old R details).map (fun r => r.id)).Perm R :=
    (hperm0.trans ((hA.append (List.Perm.refl _)).trans hB))
  refine ⟨hmain, fun h0 => ?_⟩
  subst h0
  have := hmain.eq_nil
  exact List.map_eq_nil_iff.mp this

/-- Witness for C1 at the spec's scenario: prior ids {1,2}, remote ids
{2,3}; afterwards the cached ids are exactly {2,3}. -/
theorem updateRedirections_completeness_witness :
    ((updateRedirections
      [⟨JsVal.num 1, "a@x.com", "t@t.t"⟩, ⟨JsVal.num 2, "b@x.com", "t@t.t"⟩]
      [JsVal.num 2, JsVal.num 3]
      (fun i => if i = JsVal.num 3 then ⟨JsVal.num 3, "c@x.com", "d@x.com"⟩
        else ⟨i, "q@q.qq", "w@w.ww"⟩)).map (fun r => r.id)).Perm
      [JsVal.num 2, JsVal.num 3] :=
  (updateRedirections_completeness _ _ _ (by decide) (by decide) (by decide)).1

/-- C2: the first count `updateRedirections` reports — logged as
"N remote redirection(s)" — is `existingRedirIds.length`, the size of the
*prior local* snapshot, not the size of the remote id set.  At the failing
input (empty prior snapshot, one remote id) it reports 0 while the remote
total is 1; on the spec's own scenario (local {1,2}, remote {2,3}) the two
happen to coincide, so the counts come out (2, 1, 1) there. -/
theorem updateRedirectionsCounts_first_is_local_count :
    (∀ (old : List Redirection) (R : List JsVal) (details : JsVal → Redirection),
      (updateRedirectionsCounts old R details).1 = old.length) ∧
    (updateRedirectionsCounts [] [JsVal.num 5]
      (fun i => ⟨i, "e@x.com", "f@x.com"⟩)).1 = 0 ∧
    ([JsVal.num 5] : List JsVal).length = 1 ∧
    updateRedirectionsCounts
      [⟨JsVal.num 1, "a@x.com", "t@t.t"⟩, ⟨JsVal.num 2, "b@x.com", "t@t.t"⟩]
      [JsVal.num 2, JsVal.num 3]
      (fun i => if i = JsVal.num 3 then ⟨JsVal.num 3, "c@x.com", "d@x.com"⟩
        else ⟨i, "q@q.qq", "w@w.ww"⟩) = (2, 1, 1) := by
  refine ⟨fun old R details => ?_, by decide, by decide, by decide⟩
  simp [updateRedirectionsCounts, existingRedirIds]

/-- C3 counterexample: with an empty prior snapshot, remote ids {1,2} and
details `1 ↦ from "B@x.com"`, `2 ↦ from "a@x.com"`, the persisted sequence
is ["a@x.com", "B@x.com"] by `from` — `localeCompare` puts "a…" before
"B…" — which is *not* sorted under the case-sensitive ordinal comparison
the claim states, since ordinally 'B' < 'a'. -/
theorem updateRedirections_not_ordinal_sorted :
    sortedByFromOrdinal (updateRedirections []
      [JsVal.num 1, JsVal.num 2]
      (fun i => if i = JsVal.num 1 then ⟨JsVal.num 1, "B@x.com", "t@t.t"⟩
        else ⟨JsVal.num 2, "a@x.com", "d@x.com"⟩)) = false ∧
    (updateRedirections []
      [JsVal.num 1, JsVal.num 2]
      (fun i => if i = JsVal.num 1 then ⟨JsVal.num 1, "B@x.com", "t@t.t"⟩
        else ⟨JsVal.num 2, "a@x.com", "d@x.com"⟩)).map (fun r => r.fromAddr) =
      ["a@x.com", "B@x.com"] :=
  ⟨by decide, by decide⟩

/-- C3 (amended): after every run of `updateRedirections`, regardless of
fetch order or prior order, the persisted sequence is sorted ascending by
`from` under the `localeCompare` collation (case-insensitive primary,
lowercase-first tiebreak) — not under ordinal comparison. -/
theorem updateRedirections_sorted (old : List Redirection) (R : List JsVal)
    (details : JsVal → Redirection) :
    List.Sorted redirFromLe (updateRedirections old R details) := by
  unfold updateRedirections
  exact List.sorted_insertionSort _ _

theorem updateRedirections_of_stable (A : List Redirection) (R : List JsVal)
    (details : JsVal → Redirection)
    (hnew : newRedirIds A R = []) (hdel : deletedRedirIds A R = [])
    (hsorted : List.Sorted redirFromLe A) :
    updateRedirections A R details = A := by
  unfold updateRedirections newRedirections
  rw [hdel, hnew]
  simp only [List.map_nil, List.append_nil]
  rw [List.filter_eq_self.mpr]
  · exact hsorted.insertionSort_eq
  · intro a _
    simp [contains_eq_decide_mem]

theorem updateRedirections_ids_sub (old : List Redirection) (R : List JsVal)
    (details : JsVal → Redirection) (hdet : ∀ i ∈ R, (details i).id = i) :
    ∀ r ∈ updateRedirections old R details, r.id ∈ R := by
  intro r hr
  unfold updateRedirections at hr
  rw [(List.perm_insertionSort _ _).mem_iff] at hr
  rcases List.mem_append.mp hr with h | h
  · obtain ⟨hro, hpred⟩ := List.mem_filter.mp h
    by_contra hnot
    have hmem : r.id ∈ deletedRedirIds old R := by
      unfold deletedRedirIds
      exact List.mem_filter.mpr ⟨List.mem_map_of_mem _ hro,
        by simp [contains_eq_decide_mem, hnot]⟩
    rw [contains_eq_decide_mem] at hpred
    simp [hmem] at hpred
  · unfold newRedirections at h
    obtain ⟨i, hi, rfl⟩ := List.mem_map.mp h
    have hiR : i ∈ R := (List.mem_filter.mp hi).1
    rw [hdet i hiR]
    exact hiR

theorem updateRedirections_ids_sup (old : List Redirection) (R : List JsVal)
    (details : JsVal → Redirection) (hdet : ∀ i ∈ R, (details i).id = i) :
    ∀ i ∈ R, i ∈ existingRedirIds (updateRedirections old R details) := by
  intro i hiR
  unfold existingRedirIds
  rw [List.mem_map]
  by_cases hie : i ∈ existingRedirIds old
  · obtain ⟨r, hro, hrid⟩ := List.mem_map.mp hie
    refine ⟨r, ?_, hrid⟩
    unfold updateRedirections
    rw [(List.perm_insertionSort _ _).mem_iff]
    apply List.mem_append_left
    refine List.mem_filter.mpr ⟨hro, ?_⟩
    have : r.id ∉ deletedRedirIds old R := by
      unfold deletedRedirIds
      rw [List.mem_filter]
      rintro ⟨-, hq⟩
      rw [contains_eq_decide_mem] at hq
      simp [hrid, hiR] at hq
    simp [contains_eq_decide_mem, this]
  · refine ⟨details i, ?_, hdet i hiR⟩
    unfold updateRedirections
    rw [(List.perm_insertionSort _ _).mem_iff]
    apply List.mem_append_right
    unfold newRedirections
    apply List.mem_map_of_mem
    unfold newRedirIds
    exact List.mem_filter.mpr ⟨hiR, by simp [contains_eq_decide_mem, hie]⟩

/-- C4: with a fixed remote state (same id set, same per-id details, each
detail carrying its own id), a second run of `updateRedirections`
immediately after a first one adds nothing, deletes nothing, and leaves
the persisted sequence exactly as the first run produced it. -/
theorem updateRedirections_idempotent (old : List Redirection) (R : List JsVal)
    (details : JsVal → Redirection) (hdet : ∀ i ∈ R, (details i).id = i) :
    updateRedirections (updateRedirections old R details) R details =
      updateRedirections old R details ∧
    (updateRedirectionsCounts (updateRedirections old R details) R details).2.1 = 0 ∧
    (updateRedirectionsCounts (updateRedirections old R details) R details).2.2 = 0 := by
  have hnew2 : newRedirIds (updateRedirections old R details) R = [] := by
    unfold newRedirIds
    rw [List.filter_eq_nil_iff]
    intro i hiR
    simp [contains_eq_decide_mem, updateRedirections_ids_sup old R details hdet i hiR]
  have hdel2 : deletedRedirIds (updateRedirections old R details) R = [] := by
    unfold deletedRedirIds
    rw [List.filter_eq_nil_iff]
    intro i hiE
    obtain ⟨r, hr, rfl⟩ := List.mem_map.mp hiE
    simp [contains_eq_decide_mem, updateRedirections_ids_sub old R details hdet r hr]
  refine ⟨updateRedirections_of_stable _ R details hnew2 hdel2
    (updateRedirections_sorted old R details), ?_, ?_⟩
  · unfold updateRedirectionsCounts newRedirections
    rw [hnew2]
    rfl
  · unfold updateRedirectionsCounts
    rw [hdel2]
    rfl

/-- Witness for C4 at the spec's scenario inputs. -/
theorem updateRedirections_idempotent_witness :
    updateRedirections (updateRedirections
      [⟨JsVal.num 1, "a@x.com", "t@t.t"⟩, ⟨JsVal.num 2, "b@x.com", "t@t.t"⟩]
      [JsVal.num 2, JsVal.num 3]
      (fun i => if i = JsVal.num 3 then ⟨JsVal.num 3, "c@x.com", "d@x.com"⟩
        else ⟨i, "q@q.qq", "w@w.ww"⟩))
      [JsVal.num 2, JsVal.num 3]
      (fun i => if i = JsVal.num 3 then ⟨JsVal.num 3, "c@x.com", "d@x.com"⟩
        else ⟨i, "q@q.qq", "w@w.ww"⟩) =
    updateRedirections
      [⟨JsVal.num 1, "a@x.com", "t@t.t"⟩, ⟨JsVal.num 2, "b@x.com", "t@t.t"⟩]
      [JsVal.num 2, JsVal.num 3]
      (fun i => if i = JsVal.num 3 then ⟨JsVal.num 3, "c@x.com", "d@x.com"⟩
        else ⟨i, "q@q.qq", "w@w.ww"⟩) :=
  (updateRedirections_idempotent _ _ _ (by decide)).1

/-- C5 (code evaluated at the failing input): with the snapshot holding one
record (id "7", from "good@x.com") and the batch ["good", "ghost"], the
`redir delete` action issues *two* remote DELETE calls — one with the
resolved id "7" and one whose URL id segment is JavaScript `undefined`
(`none`), because the unresolved lookup `redirByFrom("ghost").id` is passed
to `deleteRedir` unchecked — and runs reconciliation once afterwards.  The
claim (and the spec scenario) say no remote call is issued for the
unresolved item. -/
theorem redirDeleteAction_eval_unresolved :
    redirDeleteAction [⟨JsVal.str "7", "good@x.com", "t@t.t"⟩] "x.com"
      ["good", "ghost"] = ([some (JsVal.str "7"), none], 1) := by decide

/-- C6: reconciling the active domain never alters the persisted
`redirections` of any other domain — the save serializes the whole
multi-domain mapping and only the active domain's entry is replaced. -/
theorem updateRedirectionsCache_frame (cache : Cache) (dom d : String)
    (R : List JsVal) (details : JsVal → Redirection) (hne : d ≠ dom) :
    cacheGet (updateRedirectionsCache cache dom R details) d = cacheGet cache d := by
  unfold cacheGet updateRedirectionsCache
  induction cache with
  | nil => rfl
  | cons e t ih =>
    rw [List.map_cons]
    by_cases hd : e.1 = d
    · have hdom : (e.1 == dom) = false := by
        rw [beq_eq_false_iff_ne, hd]
        exact hne
      have hpe : (e.1 == d) = true := by rw [hd]; exact beq_self_eq_true d
      rw [if_neg (by rw [hdom]; exact Bool.false_ne_true)]
      simp only [List.find?_cons, hpe]
    · have hpef : (e.1 == d) = false := beq_eq_false_iff_ne.mpr hd
      by_cases hdm : (e.1 == dom) = true
      · rw [if_pos hdm]
        simp only [List.find?_cons, hpef]
        exact ih
      · rw [if_neg hdm]
        simp only [List.find?_cons, hpef]
        exact ih

/-- Witness for C6: updating domain "x.com" leaves domain "other.org"
untouched in a two-domain cache. -/
theorem updateRedirectionsCache_frame_witness :
    cacheGet (updateRedirectionsCache
      [("x.com", []), ("other.org", [⟨JsVal.num 9, "k@other.org", "t@t.t"⟩])]
      "x.com" [JsVal.num 1] (fun i => ⟨i, "n@x.com", "m@m.mm"⟩)) "other.org" =
    cacheGet [("x.com", []), ("other.org", [⟨JsVal.num 9, "k@other.org", "t@t.t"⟩])]
      "other.org" :=
  updateRedirectionsCache_frame _ "x.com" "other.org" _ _ (by decide)

/-- C9 counterexample: with the configured secret "abcd" (4 characters) the
guard `secret.length > 4` skips masking, so `maskSecretsInLog` returns the
input unchanged and its output still contains the raw secret — the claim
says the output never contains any configured secret under any mode. -/
theorem maskSecretsInLog_leaks_short_secret :
    maskSecretsInLog ["abcd"] "key abcd end" = "key abcd end" ∧
    strIncludes (maskSecretsInLog ["abcd"] "key abcd end") "abcd" = true :=
  ⟨by decide, by decide⟩

/-- C9 (amended): `maskSecretsInLog` masks only configured secrets longer
than 4 characters; when every configured secret has length at most 4 the
input is returned verbatim, so occurrences of such short secrets survive
into the printed text. -/
theorem maskSecretsInLog_short_secrets_unmasked (secrets : List String) :
    ∀ input : String, (∀ s ∈ secrets, s.length ≤ 4) →
      maskSecretsInLog secrets input = input := by
  induction secrets with
  | nil => intro input _; rfl
  | cons s t ih =>
    intro input h
    unfold maskSecretsInLog
    rw [List.foldl_cons]
    have hs : ¬ (s.length > 4) := by
      have := h s (by simp)
      omega
    rw [if_neg hs]
    exact ih input (fun x hx => h x (by simp [hx]))

/-- Witness for C9's amended statement. -/
theorem maskSecretsInLog_short_secrets_unmasked_witness :
    maskSecretsInLog ["abcd"] "x abcd y" = "x abcd y" :=
  maskSecretsInLog_short_secrets_unmasked ["abcd"] "x abcd y" (by decide)

/-- C7 counterexample: on a record whose id is the integer 12 — allowed by
the data model — and the non-empty query "alpha", `filterRedirections`
throws a `TypeError` (`id.toLowerCase` does not exist on a number,
modelled `Except.error ()`) instead of returning the matching records,
although the query does match the record's `from`. -/
theorem filterRedirections_num_id_throws :
    filterRedirections [⟨JsVal.num 12, "alpha@x.com", "b@x.com"⟩] (some "alpha")
      = Except.error () ∧
    strIncludes (toLowerStr "alpha@x.com") (toLowerStr "alpha") = true :=
  ⟨rfl, by decide⟩

theorem filterRedirectionsGo_ok (q : String) :
    ∀ recs : List Redirection, (∀ r ∈ recs, ∃ i, r.id = JsVal.str i) →
      filterRedirectionsGo q recs = .ok (recs.filter (fun r =>
        strIncludes (toLowerStr (jsValToString r.id)) q ||
        strIncludes (toLowerStr r.fromAddr) q ||
        strIncludes (toLowerStr r.toAddr) q))
  | [], _ => rfl
  | r :: t, h => by
    obtain ⟨i, hi⟩ := h r (by simp)
    have ht := filterRedirectionsGo_ok q t (fun x hx => h x (by simp [hx]))
    unfold filterRedirectionsGo redirMatches
    rw [hi, ht, List.filter_cons, hi]
    rfl

/-- C7 (amended): an absent or empty query returns the input unchanged for
any record list; for a non-empty query, *provided every id is a string*,
`filterRedirections` returns exactly the records on which the lowercased
query occurs in the (lowercased) `id`, `from` or `to`; a record with an
integer id makes a non-empty-query search throw instead. -/
theorem filterRedirections_spec (recs : List Redirection) :
    filterRedirections recs none = .ok recs ∧
    filterRedirections recs (some "") = .ok recs ∧
    (∀ qs : String, qs ≠ "" → (∀ r ∈ recs, ∃ i, r.id = JsVal.str i) →
      filterRedirections recs (some qs) = .ok (recs.filter (fun r =>
        strIncludes (toLowerStr (jsValToString r.id)) (toLowerStr qs) ||
        strIncludes (toLowerStr r.fromAddr) (toLowerStr qs) ||
        strIncludes (toLowerStr r.toAddr) (toLowerStr qs)))) := by
  refine ⟨rfl, rfl, fun qs hqs hids => ?_⟩
  have hstep : filterRedirections recs (some qs) =
      (if (qs == "") = true then Except.ok recs
        else filterRedirectionsGo (toLowerStr qs) recs) := rfl
  rw [hstep, if_neg (by rw [beq_eq_false_iff_ne.mpr hqs]; exact Bool.false_ne_true)]
  exact filterRedirectionsGo_ok (toLowerStr qs) recs hids

/-- Witness for C7's amended statement: searching "q" over two string-id
records keeps exactly the matching one. -/
theorem filterRedirections_spec_witness :
    filterRedirections
      [⟨JsVal.str "1", "quinn@x.com", "t@t.t"⟩, ⟨JsVal.str "2", "bob@x.com", "t@t.t"⟩]
      (some "QUI") =
      Except.ok [⟨JsVal.str "1", "quinn@x.com", "t@t.t"⟩] := by
  rw [(filterRedirections_spec _).2.2 "QUI" (by decide) (by
    intro r hr
    simp only [List.mem_cons, List.not_mem_nil, or_false] at hr
    rcases hr with rfl | rfl
    · exact ⟨"1", rfl⟩
    · exact ⟨"2", rfl⟩)]
  rfl

/-- C8 counterexample: two distinct records with equal `from` — they
compare equal on the chosen column — come out of a descending sort in
*reversed* input order, because the source reverses the stable ascending
sort; the claim's stability for the descending direction demands that they
keep their input order. -/
theorem sortRedirections_desc_not_stable :
    sortRedirections
      [⟨JsVal.str "1", "a@x.com", "p@x.com"⟩, ⟨JsVal.str "2", "a@x.com", "q@x.com"⟩]
      "from" "desc"
      = [⟨JsVal.str "2", "a@x.com", "q@x.com"⟩, ⟨JsVal.str "1", "a@x.com", "p@x.com"⟩] ∧
    localeCompare "a@x.com" "a@x.com" = 0 ∧
    decide ((⟨JsVal.str "1", "a@x.com", "p@x.com"⟩ : Redirection) =
      ⟨JsVal.str "2", "a@x.com", "q@x.com"⟩) = false :=
  ⟨by decide, by decide, by decide⟩

/-- C8 (amended): `sortRedirections` stable-sorts ascending on the chosen
column (a pair in input order whose first element sorts no later than the
second — in particular a tie — stays in that order), an invalid column
name falls back to `from`, and the descending direction is exactly the
*reverse* of the stable ascending sort, so records comparing equal appear
in reversed input order there. -/
theorem sortRedirections_spec (recs : List Redirection) (sortBy : String) :
    sortRedirections recs sortBy "desc" = (sortRedirections recs sortBy "asc").reverse ∧
    List.Sorted (colLe (sortColumn sortBy)) (sortRedirections recs sortBy "asc") ∧
    (sortRedirections recs sortBy "asc").Perm recs ∧
    ((["from", "to", "id"] : List String).contains sortBy = false →
      ∀ ord : String, sortRedirections recs sortBy ord = sortRedirections recs "from" ord) ∧
    (∀ a b : Redirection, colLe (sortColumn sortBy) a b → List.Sublist [a, b] recs →
      List.Sublist [a, b] (sortRedirections recs sortBy "asc")) := by
  refine ⟨rfl, ?_, ?_, ?_, ?_⟩
  · exact List.sorted_insertionSort _ _
  · exact List.perm_insertionSort _ _
  · intro hval ord
    have hcol : sortColumn sortBy = "from" := by
      unfold sortColumn
      rw [hval]
      rfl
    unfold sortRedirections
    rw [hcol]
    rfl
  · intro a b hab hsub
    exact List.pair_sublist_insertionSort hab hsub

/-- Witness for C8's amended statement: an unknown column name sorts like
`from`. -/
theorem sortRedirections_spec_witness :
    sortRedirections [⟨JsVal.str "1", "a@x.com", "p@x.com"⟩] "zzz" "asc" =
      sortRedirections [⟨JsVal.str "1", "a@x.com", "p@x.com"⟩] "from" "asc" :=
  (sortRedirections_spec [⟨JsVal.str "1", "a@x.com", "p@x.com"⟩] "zzz").2.2.2.1
    (by decide) "asc"

theorem find?_first {α : Type} (p : α → Bool) :
    ∀ (l : List α) (a : α), l.find? p = some a →
      p a = true ∧ ∃ l₁ l₂, l = l₁ ++ a :: l₂ ∧ ∀ x ∈ l₁, p x = false
  | [], a, h => by simp at h
  | b :: t, a, h => by
    by_cases hb : p b
    · rw [List.find?_cons_of_pos _ hb] at h
      obtain rfl : b = a := Option.some.inj h
      exact ⟨hb, [], t, rfl, by simp⟩
    · rw [List.find?_cons_of_neg _ hb] at h
      obtain ⟨hpa, l₁, l₂, heq, hall⟩ := find?_first p t a h
      refine ⟨hpa, b :: l₁, l₂, by rw [heq, List.cons_append], ?_⟩
      intro x hx
      rcases List.mem_cons.mp hx with rfl | hx'
      · exact Bool.not_eq_true _ ▸ eq_false_of_ne_true hb
      · exact hall x hx'

/-- C10: `redirByFrom` returns the *first* record of the domain's sequence
whose `from` equals either the given string itself or the string with
`@domain` appended (so bare local parts and full addresses both resolve);
when nothing matches it returns the empty object (`none`, modelling `{}`
from `|| {}`), whose `.id` read yields `undefined` (`none`) rather than
crashing. -/
theorem redirByFrom_spec (recs : List Redirection) (domain str : String) :
    (∀ r, redirByFrom recs domain str = some r →
      ((r.fromAddr = str ∨ r.fromAddr = str ++ "@" ++ domain) ∧
        ∃ l₁ l₂, recs = l₁ ++ r :: l₂ ∧
          ∀ x ∈ l₁, ¬(x.fromAddr = str ∨ x.fromAddr = str ++ "@" ++ domain))) ∧
    (redirByFrom recs domain str = none ↔
      ∀ r ∈ recs, ¬(r.fromAddr = str ∨ r.fromAddr = str ++ "@" ++ domain)) ∧
    (redirByFrom recs domain str = none →
      jsIdField (redirByFrom recs domain str) = none) := by
  refine ⟨?_, ?_, ?_⟩
  · intro r hr
    obtain ⟨hp, l₁, l₂, heq, hall⟩ := find?_first _ recs r hr
    refine ⟨by simpa using hp, l₁, l₂, heq, ?_⟩
    intro x hx
    have := hall x hx
    simpa using this
  · unfold redirByFrom
    rw [List.find?_eq_none]
    constructor
    · intro h r hr
      have := h r hr
      simpa using this
    · intro h r hr
      have := h r hr
      simpa using this
  · intro h
    rw [h]
    rfl

/-- Witness for C10: in a one-record snapshot, the bare local part "good"
resolves to the record whose `from` is "good@x.com". -/
theorem redirByFrom_spec_witness :
    (⟨JsVal.str "7", "good@x.com", "t@t.t"⟩ : Redirection).fromAddr = "good" ∨
      (⟨JsVal.str "7", "good@x.com", "t@t.t"⟩ : Redirection).fromAddr =
        "good" ++ "@" ++ "x.com" :=
  ((redirByFrom_spec [⟨JsVal.str "7", "good@x.com", "t@t.t"⟩] "x.com" "good").1
    ⟨JsVal.str "7", "good@x.com", "t@t.t"⟩ (by decide)).1
